import Mathlib

set_option maxHeartbeats 1000000

/-!
Formal model of the y-crdt collaborative-document engine exposed through the
C FFI header `tests-ffi/include/libyrs.h`.  The Rust implementation behind
the header is not part of this source tree, so the engine core (block store,
conflict resolution, transactions, lib0 codec) is modelled from the
specification, while the observable operation signatures and their
documented behaviour follow the header.  Content units are modelled at the
granularity of one clock tick per unit (a character of a Text, one element
of an Array, one map write), which is the splitting-invariant refinement of
the block runs described in the spec.
-/

/-- Modelled from the spec: a block identifier, the pair (client, clock)
identifying the exact origin of one unit of content; immutable once
assigned. -/
structure YId where
  client : Nat
  clock : Nat
deriving DecidableEq

/-- Total order on identifiers: lexicographic on (client, clock).  Used to
keep the block store in a canonical order. -/
def idLeb (a b : YId) : Bool :=
  decide (a.client < b.client ∨ (a.client = b.client ∧ a.clock ≤ b.clock))

/-- Strict version of `idLeb`. -/
def idLtb (a b : YId) : Bool :=
  decide (a.client < b.client ∨ (a.client = b.client ∧ a.clock < b.clock))

/-- Modelled from the spec: a block unit carrying its identifier, its left
and right origins (the identifiers of the visible neighbours at insertion
time), its payload and a tombstone flag. -/
structure YItem (α : Type) where
  id : YId
  origin : Option YId
  rightOrigin : Option YId
  content : α
  deleted : Bool
deriving DecidableEq

/-- Whether the store already holds a block with identifier `i`. -/
def hasId {α : Type} (s : List (YItem α)) (i : YId) : Bool :=
  s.any (fun y => y.id == i)

/-- Insertion into the canonically ordered store. -/
def ordIns {α : Type} (x : YItem α) : List (YItem α) → List (YItem α)
  | [] => [x]
  | y :: ys => if idLeb x.id y.id then x :: y :: ys else y :: ordIns x ys

/-- Modelled from the spec: the block store keeps every block addressed by
its immutable (client, clock) identifier; a block whose identifier is
already present is ignored (identifiers are globally unique, so a duplicate
identifier means the block has already been integrated).  The store is kept
canonically ordered by identifier, so that its contents are independent of
arrival order. -/
def insertItem {α : Type} (s : List (YItem α)) (x : YItem α) : List (YItem α) :=
  if hasId s x.id then s else ordIns x s

/-- Whether an (optional) origin identifier is already present in the chain;
a missing origin makes a block not yet integrable (it stays buffered). -/
def originOk {α : Type} (chain : List (YItem α)) : Option YId → Bool
  | none => true
  | some o => chain.any (fun c => c.id == o)

/-- Modelled from the spec: a block is ready to integrate once both of its
origins have been integrated; until then it is buffered (the
MissingDependency rule). -/
def ready {α : Type} (chain : List (YItem α)) (b : YItem α) : Bool :=
  originOk chain b.origin && originOk chain b.rightOrigin

/-- Modelled from the spec: the conflict scan of the integration rule.
Starting right after the left origin of `b`, concurrent blocks that claim an
earlier slot are skipped: a block anchored at the same left origin whose
client identifier is larger claims the earlier slot, and every block whose
origin lies inside the already-skipped region belongs to that earlier slot
as well.  The scan stops at the right origin of `b`. -/
def skipLen {α : Type} (b : YItem α) : List (YItem α) → List YId → Nat
  | [], _ => 0
  | c :: cs, skipped =>
    if b.rightOrigin == some c.id then 0
    else if (c.origin == b.origin && decide (b.id.client < c.id.client)) ||
        (match c.origin with
         | some o => skipped.contains o
         | none => false) then
      1 + skipLen b cs (c.id :: skipped)
    else 0

/-- Insert an element at position `n` of a list. -/
def insertAt {α : Type} (l : List α) (n : Nat) (x : α) : List α :=
  l.take n ++ x :: l.drop n

/-- Modelled from the spec: place one block into the container chain, right
after its left origin and after every concurrent block that claims an
earlier slot per the deterministic tie-break. -/
def integrate {α : Type} (chain : List (YItem α)) (b : YItem α) : List (YItem α) :=
  let pos := match b.origin with
    | none => 0
    | some o =>
      match chain.findIdx? (fun c => c.id == o) with
      | some j => j + 1
      | none => 0
  insertAt chain (pos + skipLen b (chain.drop pos) []) b

/-- Integration loop: repeatedly integrate the first pending block whose
origins are satisfied, until no block is ready (remaining blocks stay
buffered and invisible). -/
def linearizeAux {α : Type} [DecidableEq α] :
    Nat → List (YItem α) → List (YItem α) → List (YItem α)
  | 0, chain, _ => chain
  | Nat.succ fuel, chain, pending =>
    match pending.find? (fun b => ready chain b) with
    | none => chain
    | some b => linearizeAux fuel (integrate chain b) (pending.erase b)

/-- Modelled from the spec: the total order of blocks within a sequence
container is a pure, deterministic function of origins and (clock, client)
tie-breaks, so it is computed here directly from the canonical store,
independent of arrival order. -/
def linearize {α : Type} [DecidableEq α] (store : List (YItem α)) : List (YItem α) :=
  linearizeAux store.length [] store

/-- Content of a sequence container: the chain with tombstoned blocks
skipped. -/
def visibleOf {α : Type} [DecidableEq α] (store : List (YItem α)) : List (YItem α) :=
  (linearize store).filter (fun it => !it.deleted)

/-- Modelled from the spec: an update is the set of blocks one replica has
that another lacks; it carries blocks of every container of the document. -/
structure YUpdate where
  text : List (YItem Char)
  arr : List (YItem Int)
  map : List (YItem (String × Int))
deriving DecidableEq

/-- Modelled from the spec: a document owns the per-replica client id, the
next local clock, the canonical block stores of its root containers (one
Text, one Array, one Map register container here) and the
transaction-open flag. -/
structure YDoc where
  clientId : Nat
  clock : Nat
  text : List (YItem Char)
  arr : List (YItem Int)
  map : List (YItem (String × Int))
  openTxn : Bool
deriving DecidableEq

/-- Mirrors `ydoc_new_with_id`: a fresh document with the given client id. -/
def ydoc_new_with_id (id : Nat) : YDoc :=
  { clientId := id, clock := 0, text := [], arr := [], map := [], openTxn := false }

/-- Mirrors `ytransaction_new`: opens a read-write transaction. -/
def ytransaction_new (d : YDoc) : YDoc :=
  { d with openTxn := true }

/-- Text content of a store, as a list of characters. -/
def textCharsOf (store : List (YItem Char)) : List Char :=
  (visibleOf store).map (fun it => it.content)

/-- Visible characters of the document's root Text. -/
def textChars (d : YDoc) : List Char :=
  textCharsOf d.text

/-- Mirrors `ytext_string`: the UTF-8 string content of the root Text. -/
def ytext_string (d : YDoc) : String :=
  String.mk (textChars d)

/-- Sum of the UTF-8 byte sizes of a list of characters. -/
def sumBytes : List Char → Nat
  | [] => 0
  | c :: cs => c.utf8Size + sumBytes cs

/-- Mirrors `ytext_len`: per the header, the length of the Text content in
UTF-8 bytes (without the null terminator), computed from the byte sizes of
the visible content units. -/
def ytext_len (d : YDoc) : Nat :=
  sumBytes (textChars d)

/-- Convert a UTF-8 byte offset into a character position; fails when the
offset is past the end or does not fall on a character boundary. -/
def charPosOfByte : List Char → Nat → Option Nat
  | _, 0 => some 0
  | [], _ => none
  | c :: cs, off =>
    if c.utf8Size ≤ off then (charPosOfByte cs (off - c.utf8Size)).map (fun p => p + 1)
    else none

/-- Modelled from the spec: a run of freshly created block units for one
local insertion.  Each unit takes the next clock of the local client; the
first is anchored at the given left origin, each further unit at its
predecessor; all share the right origin recorded at insertion time. -/
def mkRun {α : Type} (client : Nat) : Nat → Option YId → Option YId → List α → List (YItem α)
  | _, _, _, [] => []
  | clk, lorig, rorig, c :: cs =>
    { id := ⟨client, clk⟩, origin := lorig, rightOrigin := rorig,
      content := c, deleted := false }
      :: mkRun client (clk + 1) (some ⟨client, clk⟩) rorig cs

/-- Modelled from the spec: local insert at a visible position records the
identifier of the block at that position as right origin and the
immediately preceding one as left origin, then creates the new blocks at
the local client's next clocks.  The index is a UTF-8 byte offset;
per the header an out-of-bounds index makes the call fail (panic), so the
function returns `none` and the document is not modified. -/
def ytext_insert (d : YDoc) (index : Nat) (s : String) : Option YDoc :=
  match charPosOfByte (textChars d) index with
  | none => none
  | some p =>
    let vis := visibleOf d.text
    let lorig := if p = 0 then none else (vis[p - 1]?).map (fun it => it.id)
    let rorig := (vis[p]?).map (fun it => it.id)
    some { d with clock := d.clock + s.data.length,
                  text := List.foldl insertItem d.text
                    (mkRun d.clientId d.clock lorig rorig s.data) }

/-- Modelled from the spec: delete tombstones the covered content units
(never removes them), so they remain valid anchors.  Byte offsets outside
the bounds make the call fail and leave the document unchanged. -/
def ytext_remove_range (d : YDoc) (index len : Nat) : Option YDoc :=
  match charPosOfByte (textChars d) index, charPosOfByte (textChars d) (index + len) with
  | some p1, some p2 =>
    let ids := (((visibleOf d.text).drop p1).take (p2 - p1)).map (fun it => it.id)
    let mark := fun (it : YItem Char) =>
      if ids.contains it.id then { it with deleted := true } else it
    some { d with text := d.text.map mark }
  | _, _ => none

/-- Visible elements of the document's root Array. -/
def yarray_contents (d : YDoc) : List Int :=
  (visibleOf d.arr).map (fun it => it.content)

/-- Mirrors `yarray_len`: the number of visible elements. -/
def yarray_len (d : YDoc) : Nat :=
  (visibleOf d.arr).length

/-- Mirrors `yarray_get`: per the header, a read outside the bounds of the
array returns an absent value (null pointer) instead of failing. -/
def yarray_get (d : YDoc) (i : Int) : Option Int :=
  if i < 0 then none else (yarray_contents d)[i.toNat]?

/-- Mirrors `yarray_insert_range`: per the header the index must be between
0 and the length inclusive, otherwise the call panics at runtime, modelled
as `none`. -/
def yarray_insert_range (d : YDoc) (index : Nat) (items : List Int) : Option YDoc :=
  if index ≤ yarray_len d then
    let vis := visibleOf d.arr
    let lorig := if index = 0 then none else (vis[index - 1]?).map (fun it => it.id)
    let rorig := (vis[index]?).map (fun it => it.id)
    some { d with clock := d.clock + items.length,
                  arr := List.foldl insertItem d.arr
                    (mkRun d.clientId d.clock lorig rorig items) }
  else none

/-- Mirrors `yarray_remove_range`: per the header the removed range must fit
into the bounds of the array, otherwise the call panics at runtime,
modelled as `none`. -/
def yarray_remove_range (d : YDoc) (index len : Nat) : Option YDoc :=
  if index + len ≤ yarray_len d then
    let ids := (((visibleOf d.arr).drop index).take len).map (fun it => it.id)
    let mark := fun (it : YItem Int) =>
      if ids.contains it.id then { it with deleted := true } else it
    some { d with arr := d.arr.map mark }
  else none

/-- Strict order on identifiers used for the last-write-wins rule:
(clock, client) lexicographically, so a higher clock wins and equal clocks
are broken by the higher client id. -/
def clkLtb (a b : YId) : Bool :=
  decide (a.clock < b.clock ∨ (a.clock = b.clock ∧ a.client < b.client))

/-- Mirrors `ymap_insert`: a map write is a register block keyed by its
(clock, client) identifier. -/
def ymap_insert (d : YDoc) (k : String) (v : Int) : YDoc :=
  { d with clock := d.clock + 1,
           map := insertItem d.map
             { id := ⟨d.clientId, d.clock⟩, origin := none, rightOrigin := none,
               content := (k, v), deleted := false } }

/-- Modelled from the spec: the active write of a map key is the one not
superseded by a (clock, client)-later write; higher clock wins and equal
clocks are broken by the higher client id. -/
def mapWinner : List (YItem (String × Int)) → String → Option (YItem (String × Int))
  | [], _ => none
  | w :: ws, k =>
    match mapWinner ws k with
    | none => if w.content.fst == k then some w else none
    | some a => if w.content.fst == k && clkLtb a.id w.id then some w else some a

/-- Last-write-wins read over a map store. -/
def mapGetOf (store : List (YItem (String × Int))) (k : String) : Option Int :=
  (mapWinner store k).map (fun w => w.content.snd)

/-- Mirrors `ymap_get`: the surviving value under a key, or an absent
result. -/
def ymap_get (d : YDoc) (k : String) : Option Int :=
  mapGetOf d.map k

/-- Fuelled worker of the variable-length integer encoder; the fuel bounds
the number of seven-bit groups and is always sufficient when it is at least
the value itself. -/
def encodeVarNatAux : Nat → Nat → List Nat
  | 0, n => [n % 128]
  | Nat.succ f, n => if n < 128 then [n] else (n % 128 + 128) :: encodeVarNatAux f (n / 128)

/-- Modelled from the spec: lib0 v1 variable-length unsigned integer, seven
bits per byte, least significant group first, high bit as continuation
flag. -/
def encodeVarNat (n : Nat) : List Nat :=
  encodeVarNatAux n n

/-- Decoder for `encodeVarNat`; returns the value and the remaining bytes,
or fails on truncated input. -/
def decodeVarNat : List Nat → Option (Nat × List Nat)
  | [] => none
  | b :: rest =>
    if b < 128 then some (b, rest)
    else
      match decodeVarNat rest with
      | some (m, rest2) => some (m * 128 + (b - 128), rest2)
      | none => none

/-- Byte encoding of the entries of a state vector. -/
def encodeSvEntries : List (Nat × Nat) → List Nat
  | [] => []
  | (c, k) :: t => encodeVarNat c ++ encodeVarNat k ++ encodeSvEntries t

/-- Modelled from the spec: lib0 v1 encoding of a state vector, the number
of entries followed by one (client, clock) pair per entry. -/
def encodeStateVector (sv : List (Nat × Nat)) : List Nat :=
  encodeVarNat sv.length ++ encodeSvEntries sv

/-- Decoder for a counted run of state-vector entries. -/
def decodeSvEntries : Nat → List Nat → Option (List (Nat × Nat) × List Nat)
  | 0, bs => some ([], bs)
  | Nat.succ n, bs =>
    match decodeVarNat bs with
    | none => none
    | some (c, bs1) =>
      match decodeVarNat bs1 with
      | none => none
      | some (k, bs2) =>
        match decodeSvEntries n bs2 with
        | none => none
        | some (l, bs3) => some ((c, k) :: l, bs3)

/-- Decoder for `encodeStateVector`; the payload must be consumed exactly,
otherwise decoding fails. -/
def decodeStateVector (bs : List Nat) : Option (List (Nat × Nat)) :=
  match decodeVarNat bs with
  | none => none
  | some (n, bs1) =>
    match decodeSvEntries n bs1 with
    | none => none
    | some (l, rest) => if rest = [] then some l else none

/-- All block identifiers of a document. -/
def allIds (d : YDoc) : List YId :=
  d.text.map (fun it => it.id) ++ d.arr.map (fun it => it.id) ++
    d.map.map (fun it => it.id)

/-- Sorted insertion of a client id without duplicates. -/
def insertClient (c : Nat) : List Nat → List Nat
  | [] => [c]
  | x :: xs => if c < x then c :: x :: xs else if c = x then x :: xs else x :: insertClient c xs

/-- Clients that contributed blocks to the document. -/
def clientsOf (d : YDoc) : List Nat :=
  List.foldl (fun acc i => insertClient i.client acc) [] (allIds d)

/-- Exclusive upper bound of the observed clocks of one client. -/
def maxClockFor (d : YDoc) (c : Nat) : Nat :=
  List.foldl (fun m i => if i.client = c then Nat.max m (i.clock + 1) else m) 0 (allIds d)

/-- Modelled from the spec: the state vector maps every contributing client
to the exclusive upper bound of its observed clocks. -/
def computeSV (d : YDoc) : List (Nat × Nat) :=
  (clientsOf d).map (fun c => (c, maxClockFor d c))

/-- Mirrors `ytransaction_state_vector_v1`: the document's state vector
serialized with the lib0 v1 encoding. -/
def ytransaction_state_vector_v1 (d : YDoc) : List Nat :=
  encodeStateVector (computeSV d)

/-- Whether a state vector already covers a block identifier. -/
def covered (sv : List (Nat × Nat)) (i : YId) : Bool :=
  match sv.find? (fun p => p.fst == i.client) with
  | some p => decide (i.clock < p.snd)
  | none => false

/-- Modelled from the spec: the diff against a peer state vector is the set
of blocks whose identifier the peer has not yet observed; an empty vector
yields the full snapshot. -/
def updateFrom (d : YDoc) (sv : List (Nat × Nat)) : YUpdate :=
  { text := d.text.filter (fun it => !covered sv it.id),
    arr := d.arr.filter (fun it => !covered sv it.id),
    map := d.map.filter (fun it => !covered sv it.id) }

/-- Byte encoding of an optional identifier. -/
def encodeOptId : Option YId → List Nat
  | none => [0]
  | some i => [1] ++ encodeVarNat i.client ++ encodeVarNat i.clock

/-- Byte encoding of one block, given an encoder for its payload. -/
def encodeItemWith {α : Type} (enc : α → List Nat) (it : YItem α) : List Nat :=
  encodeVarNat it.id.client ++ encodeVarNat it.id.clock ++ encodeOptId it.origin ++
    encodeOptId it.rightOrigin ++ (if it.deleted then [1] else [0]) ++ enc it.content

/-- Counted byte encoding of a list of values. -/
def encodeListWith {α : Type} (enc : α → List Nat) (l : List α) : List Nat :=
  encodeVarNat l.length ++ List.foldr (fun x acc => enc x ++ acc) [] l

/-- Byte encoding of a character as its code point. -/
def encodeChar (c : Char) : List Nat :=
  encodeVarNat c.toNat

/-- Byte encoding of an integer as a sign tag and a magnitude. -/
def encodeInt (i : Int) : List Nat :=
  if i < 0 then 1 :: encodeVarNat (-i).toNat else 0 :: encodeVarNat i.toNat

/-- Byte encoding of a string as a counted run of code points. -/
def encodeStr (s : String) : List Nat :=
  encodeListWith encodeChar s.data

/-- Byte encoding of one map-register write. -/
def encodeKV (p : String × Int) : List Nat :=
  encodeStr p.fst ++ encodeInt p.snd

/-- Modelled from the spec: lib0 v1 style encoding of an update payload,
one counted section per container. -/
def encodeUpdate (u : YUpdate) : List Nat :=
  encodeListWith (encodeItemWith encodeChar) u.text ++
    encodeListWith (encodeItemWith encodeInt) u.arr ++
    encodeListWith (encodeItemWith encodeKV) u.map

/-- Decoder for an optional identifier; fails on a tag mismatch. -/
def decodeOptId : List Nat → Option (Option YId × List Nat)
  | 0 :: bs => some (none, bs)
  | 1 :: bs =>
    match decodeVarNat bs with
    | some (c, bs1) =>
      match decodeVarNat bs1 with
      | some (k, bs2) => some (some ⟨c, k⟩, bs2)
      | none => none
    | none => none
  | _ => none

/-- Decoder for a tombstone flag; fails on a tag mismatch. -/
def decodeFlag : List Nat → Option (Bool × List Nat)
  | 0 :: bs => some (false, bs)
  | 1 :: bs => some (true, bs)
  | _ => none

/-- Decoder for a character code point. -/
def decodeChar (bs : List Nat) : Option (Char × List Nat) :=
  match decodeVarNat bs with
  | some (n, rest) => some (Char.ofNat n, rest)
  | none => none

/-- Decoder for a sign-tagged integer; fails on a tag mismatch. -/
def decodeInt : List Nat → Option (Int × List Nat)
  | 0 :: bs =>
    match decodeVarNat bs with
    | some (n, rest) => some ((n : Int), rest)
    | none => none
  | 1 :: bs =>
    match decodeVarNat bs with
    | some (n, rest) => some (-(n : Int), rest)
    | none => none
  | _ => none

/-- Decoder for one block, given a decoder for its payload. -/
def decodeItemWith {α : Type} (dec : List Nat → Option (α × List Nat)) (bs : List Nat) :
    Option (YItem α × List Nat) :=
  match decodeVarNat bs with
  | none => none
  | some (c, bs1) =>
    match decodeVarNat bs1 with
    | none => none
    | some (k, bs2) =>
      match decodeOptId bs2 with
      | none => none
      | some (lo, bs3) =>
        match decodeOptId bs3 with
        | none => none
        | some (ro, bs4) =>
          match decodeFlag bs4 with
          | none => none
          | some (del, bs5) =>
            match dec bs5 with
            | none => none
            | some (x, bs6) =>
              some ({ id := ⟨c, k⟩, origin := lo, rightOrigin := ro,
                      content := x, deleted := del }, bs6)

/-- Decoder for a counted run of values. -/
def decodeCount {α : Type} (dec : List Nat → Option (α × List Nat)) :
    Nat → List Nat → Option (List α × List Nat)
  | 0, bs => some ([], bs)
  | Nat.succ n, bs =>
    match dec bs with
    | none => none
    | some (x, bs1) =>
      match decodeCount dec n bs1 with
      | none => none
      | some (l, bs2) => some (x :: l, bs2)

/-- Decoder for a counted list. -/
def decodeListWith {α : Type} (dec : List Nat → Option (α × List Nat)) (bs : List Nat) :
    Option (List α × List Nat) :=
  match decodeVarNat bs with
  | none => none
  | some (n, bs1) => decodeCount dec n bs1

/-- Decoder for a string. -/
def decodeStr (bs : List Nat) : Option (String × List Nat) :=
  match decodeListWith decodeChar bs with
  | none => none
  | some (l, rest) => some (String.mk l, rest)

/-- Decoder for one map-register write. -/
def decodeKV (bs : List Nat) : Option ((String × Int) × List Nat) :=
  match decodeStr bs with
  | none => none
  | some (s, bs1) =>
    match decodeInt bs1 with
    | none => none
    | some (v, bs2) => some ((s, v), bs2)

/-- Decoder for the body of an update payload. -/
def decodeUpdateBody (bs : List Nat) : Option (YUpdate × List Nat) :=
  match decodeListWith (decodeItemWith decodeChar) bs with
  | none => none
  | some (t, bs1) =>
    match decodeListWith (decodeItemWith decodeInt) bs1 with
    | none => none
    | some (a, bs2) =>
      match decodeListWith (decodeItemWith decodeKV) bs2 with
      | none => none
      | some (m, bs3) => some ({ text := t, arr := a, map := m }, bs3)

/-- Modelled from the spec: decoding errors of the codec. -/
inductive YError where
  | invalidEncoding : YError
deriving DecidableEq

/-- Modelled from the spec: decoding of truncated or tag-mismatched input
fails with an explicit InvalidEncoding result (never crashes or silently
truncates); trailing garbage is likewise rejected. -/
def decodeUpdate (bs : List Nat) : Except YError YUpdate :=
  match decodeUpdateBody bs with
  | some (u, []) => Except.ok u
  | some (_, _ :: _) => Except.error YError.invalidEncoding
  | none => Except.error YError.invalidEncoding

/-- Modelled from the spec: applying a decoded update integrates every block
whose identifier is not yet present into the canonical stores. -/
def applyUpdate (d : YDoc) (u : YUpdate) : YDoc :=
  { d with text := List.foldl insertItem d.text u.text,
           arr := List.foldl insertItem d.arr u.arr,
           map := List.foldl insertItem d.map u.map }

/-- Mirrors `ytransaction_apply`: decodes an update payload and applies it;
a payload the decoder rejects is not applied and the document is left
unchanged. -/
def ytransaction_apply (d : YDoc) (bs : List Nat) : YDoc :=
  match decodeUpdate bs with
  | Except.ok u => applyUpdate d u
  | Except.error _ => d

/-- Sequential application of several update payloads (one delivery
order). -/
def applyAll (d : YDoc) (bss : List (List Nat)) : YDoc :=
  List.foldl ytransaction_apply d bss

/-- Mirrors `ytransaction_commit` as declared in the header: the C signature
returns void, so commit produces no byte payload; it releases the document
for a new transaction.  The commit-time squash compaction is
content-invariant by design (the spec decouples it from operation
semantics), so the canonical store is unchanged. -/
def ytransaction_commit (d : YDoc) : YDoc × Option (List Nat) :=
  ({ d with openTxn := false }, none)

/-- Mirrors `ytransaction_state_diff_v1`: a null state vector yields a full
snapshot; a malformed state vector is rejected. -/
def ytransaction_state_diff_v1 (d : YDoc) (sv : Option (List Nat)) : Option (List Nat) :=
  match sv with
  | none => some (encodeUpdate (updateFrom d []))
  | some bs =>
    match decodeStateVector bs with
    | some v => some (encodeUpdate (updateFrom d v))
    | none => none

/-- One mutating call of a transaction. -/
inductive YOp where
  | tIns : Nat → String → YOp
  | tRem : Nat → Nat → YOp
  | aIns : Nat → List Int → YOp
  | aRem : Nat → Nat → YOp
  | mIns : String → Int → YOp
deriving DecidableEq

/-- Dispatch of one call; `none` is the failure (panic) of that call. -/
def applyOp (d : YDoc) : YOp → Option YDoc
  | YOp.tIns i s => ytext_insert d i s
  | YOp.tRem i l => ytext_remove_range d i l
  | YOp.aIns i vs => yarray_insert_range d i vs
  | YOp.aRem i l => yarray_remove_range d i l
  | YOp.mIns k v => some (ymap_insert d k v)

/-- Modelled from the spec: each operation mutates immediately and there is
no rollback primitive, so a failing call leaves the document exactly as the
previous calls left it. -/
def tryOp (d : YDoc) (op : YOp) : YDoc :=
  (applyOp d op).getD d

/-- Run a sequence of calls of one transaction. -/
def runOps (d : YDoc) (ops : List YOp) : YDoc :=
  List.foldl tryOp d ops

/-- Boolean coherence check: any two blocks of the list that share an
identifier are the same block (identifiers are globally unique). -/
def coherentb {α : Type} [DecidableEq α] : List (YItem α) → Bool
  | [] => true
  | x :: xs => xs.all (fun y => !(x.id == y.id) || x == y) && coherentb xs

/-- Updates successfully decoded from a list of payloads. -/
def okOf : Except YError YUpdate → Option YUpdate
  | Except.ok u => some u
  | Except.error _ => none

/-- All Text blocks carried by a list of update payloads. -/
def textItemsOf (bss : List (List Nat)) : List (YItem Char) :=
  (bss.filterMap (fun bs => okOf (decodeUpdate bs))).flatMap (fun u => u.text)

/-- All Array blocks carried by a list of update payloads. -/
def arrItemsOf (bss : List (List Nat)) : List (YItem Int) :=
  (bss.filterMap (fun bs => okOf (decodeUpdate bs))).flatMap (fun u => u.arr)

/-- All Map blocks carried by a list of update payloads. -/
def mapItemsOf (bss : List (List Nat)) : List (YItem (String × Int)) :=
  (bss.filterMap (fun bs => okOf (decodeUpdate bs))).flatMap (fun u => u.map)

/-- Equality of the observable content of every container of two
documents. -/
def SameContents (a b : YDoc) : Prop :=
  ytext_string a = ytext_string b ∧ yarray_contents a = yarray_contents b ∧
    ∀ k, ymap_get a k = ymap_get b k

/-- A replica with the given client id whose only operation so far is
inserting `s` at index 0 of the root Text. -/
def seedText (c : Nat) (s : String) : YDoc :=
  (ytext_insert (ytransaction_new (ydoc_new_with_id c)) 0 s).getD (ydoc_new_with_id c)

/-- A replica with the given client id that concurrently sets key k to `v`
at clock 5 (its local clock already advanced to 5 by earlier history). -/
def mapSeed (c : Nat) (v : Int) : YDoc :=
  ymap_insert { ydoc_new_with_id c with clock := 5 } "k" v

/-- A document whose Text holds one two-byte UTF-8 character. -/
def docEacute : YDoc :=
  (ytext_insert (ytransaction_new (ydoc_new_with_id 1)) 0 "é").getD (ydoc_new_with_id 1)

/-- Encoded payload of one sample update (client 1 inserts a character). -/
def demoBytes1 : List Nat :=
  encodeUpdate { text := [⟨⟨1, 0⟩, none, none, 'a', false⟩], arr := [], map := [] }

/-- Encoded payload of a second sample update (client 2 inserts a
character). -/
def demoBytes2 : List Nat :=
  encodeUpdate { text := [⟨⟨2, 0⟩, none, none, 'b', false⟩], arr := [], map := [] }

theorem idLeb_iff (a b : YId) :
    idLeb a b = true ↔ (a.client < b.client ∨ (a.client = b.client ∧ a.clock ≤ b.clock)) := by
  simp [idLeb]

theorem idLeb_total (a b : YId) (h : idLeb a b = false) : idLeb b a = true := by
  simp [idLeb] at h ⊢
  omega

theorem idLeb_antisymm {a b : YId} (h1 : idLeb a b = true) (h2 : idLeb b a = true) : a = b := by
  cases a with
  | mk ac ak =>
    cases b with
    | mk bc bk =>
      simp [idLeb] at h1 h2
      obtain ⟨hc, hk⟩ : ac = bc ∧ ak = bk := by omega
      simp [hc, hk]

theorem idLeb_trans {a b c : YId} (h1 : idLeb a b = true) (h2 : idLeb b c = true) :
    idLeb a c = true := by
  simp [idLeb] at h1 h2 ⊢
  omega

theorem hasId_ordIns {α : Type} [DecidableEq α] (x : YItem α) (s : List (YItem α)) (i : YId) :
    hasId (ordIns x s) i = ((x.id == i) || hasId s i) := by
  induction s with
  | nil => simp [ordIns, hasId]
  | cons y ys ih =>
    by_cases h : idLeb x.id y.id = true
    · simp [ordIns, h, hasId]
    · simp only [ordIns, h]
      rw [if_neg (by simp [h])]
      simp only [hasId, List.any_cons] at ih ⊢
      rw [ih]
      cases x.id == i <;> cases y.id == i <;> simp

theorem hasId_insertItem {α : Type} [DecidableEq α] (s : List (YItem α)) (x : YItem α) (i : YId) :
    hasId (insertItem s x) i = ((x.id == i) || hasId s i) := by
  unfold insertItem
  by_cases h : hasId s x.id = true
  · rw [if_pos h]
    by_cases hxi : (x.id == i) = true
    · have : x.id = i := by simpa using hxi
      rw [hxi, Bool.true_or]
      rw [← this]
      exact h
    · simp at hxi
      simp [hxi]
  · rw [if_neg (by simp [h])]
    exact hasId_ordIns x s i

theorem ordIns_comm {α : Type} [DecidableEq α] (x y : YItem α) (hne : x.id ≠ y.id)
    (s : List (YItem α)) : ordIns x (ordIns y s) = ordIns y (ordIns x s) := by
  induction s with
  | nil =>
    by_cases hxy : idLeb x.id y.id = true
    · have hyx : idLeb y.id x.id = false := by
        by_contra hc
        exact hne (idLeb_antisymm hxy (by revert hc; cases idLeb y.id x.id <;> simp))
      simp [ordIns, hxy, hyx]
    · have hyx : idLeb y.id x.id = true := idLeb_total _ _ (by revert hxy; cases idLeb x.id y.id <;> simp)
      simp [ordIns, hxy, hyx]
  | cons h t ih =>
    by_cases hxh : idLeb x.id h.id = true <;> by_cases hyh : idLeb y.id h.id = true
    · by_cases hxy : idLeb x.id y.id = true
      · have hyx : idLeb y.id x.id = false := by
          by_contra hc
          exact hne (idLeb_antisymm hxy (by revert hc; cases idLeb y.id x.id <;> simp))
        simp [ordIns, hxh, hyh, hxy, hyx]
      · have hyx : idLeb y.id x.id = true := idLeb_total _ _ (by revert hxy; cases idLeb x.id y.id <;> simp)
        simp [ordIns, hxh, hyh, hxy, hyx]
    · -- x before h, y after h; then y is not before x
      have hyx : idLeb y.id x.id = false := by
        by_contra hc
        have hyx' : idLeb y.id x.id = true := by revert hc; cases idLeb y.id x.id <;> simp
        exact absurd (idLeb_trans hyx' hxh) (by simp [hyh])
      simp [ordIns, hxh, hyh, hyx]
    · have hxy : idLeb x.id y.id = false := by
        by_contra hc
        have hxy' : idLeb x.id y.id = true := by revert hc; cases idLeb x.id y.id <;> simp
        exact absurd (idLeb_trans hxy' hyh) (by simp [hxh])
      simp [ordIns, hxh, hyh, hxy]
    · simp [ordIns, hxh, hyh, ih]

theorem insertItem_comm {α : Type} [DecidableEq α] (s : List (YItem α)) (x y : YItem α)
    (hco : x.id = y.id → x = y) :
    insertItem (insertItem s x) y = insertItem (insertItem s y) x := by
  by_cases hxy : x.id = y.id
  · rw [hco hxy]
  · by_cases hx : hasId s x.id = true <;> by_cases hy : hasId s y.id = true
    · simp [insertItem, hx, hy]
    · have e1 : insertItem s x = s := by simp [insertItem, hx]
      have e2 : insertItem s y = ordIns y s := by simp [insertItem, hy]
      have e3 : hasId (ordIns y s) x.id = true := by
        rw [hasId_ordIns]
        simp [hx]
      rw [e1, e2]
      simp [insertItem, e3]
    · have e1 : insertItem s y = s := by simp [insertItem, hy]
      have e2 : insertItem s x = ordIns x s := by simp [insertItem, hx]
      have e3 : hasId (ordIns x s) y.id = true := by
        rw [hasId_ordIns]
        simp [hy]
      rw [e1, e2]
      simp [insertItem, e3]
    · have e1 : insertItem s x = ordIns x s := by simp [insertItem, hx]
      have e2 : insertItem s y = ordIns y s := by simp [insertItem, hy]
      rw [e1, e2]
      have h1 : hasId (ordIns x s) y.id = false := by
        rw [hasId_ordIns]
        simp [hy, hxy]
      have h2 : hasId (ordIns y s) x.id = false := by
        rw [hasId_ordIns]
        simp [hx, hxy, Ne.symm]
      simp [insertItem, h1, h2]
      exact ordIns_comm y x (Ne.symm hxy) s

theorem hasId_foldl {α : Type} [DecidableEq α] (l s : List (YItem α)) (i : YId) :
    hasId (List.foldl insertItem s l) i = (hasId s i || l.any (fun x => x.id == i)) := by
  induction l generalizing s with
  | nil => simp
  | cons x xs ih =>
    simp only [List.foldl_cons, List.any_cons]
    rw [ih, hasId_insertItem]
    cases hasId s i <;> cases hxi : (x.id == i) <;> simp

theorem foldl_insertItem_of_present {α : Type} [DecidableEq α] (l s : List (YItem α))
    (h : ∀ x ∈ l, hasId s x.id = true) : List.foldl insertItem s l = s := by
  induction l with
  | nil => rfl
  | cons x xs ih =>
    simp only [List.foldl_cons]
    have hx : insertItem s x = s := by simp [insertItem, h x (by simp)]
    rw [hx]
    exact ih (fun y hy => h y (by simp [hy]))

theorem foldl_insertItem_idem {α : Type} [DecidableEq α] (s l : List (YItem α)) :
    List.foldl insertItem (List.foldl insertItem s l) l = List.foldl insertItem s l := by
  apply foldl_insertItem_of_present
  intro x hx
  rw [hasId_foldl]
  have hany : l.any (fun y => y.id == x.id) = true := List.any_eq_true.mpr ⟨x, hx, by simp⟩
  simp [hany]

theorem coherentb_spec {α : Type} [DecidableEq α] {l : List (YItem α)}
    (h : coherentb l = true) : ∀ x ∈ l, ∀ y ∈ l, x.id = y.id → x = y := by
  induction l with
  | nil => simp
  | cons a t ih =>
    simp only [coherentb, Bool.and_eq_true, List.all_eq_true] at h
    obtain ⟨h1, h2⟩ := h
    intro x hx y hy hid
    rcases List.mem_cons.mp hx with rfl | hx2 <;> rcases List.mem_cons.mp hy with rfl | hy2
    · rfl
    · have hb := h1 y hy2
      rw [show (x.id == y.id) = true by simp [hid]] at hb
      simpa using hb
    · have hb := h1 x hx2
      rw [show (y.id == x.id) = true by simp [hid]] at hb
      have : y = x := by simpa using hb
      exact this.symm
    · exact ih h2 x hx2 y hy2 hid

theorem applyAll_text (d : YDoc) (bss : List (List Nat)) :
    (applyAll d bss).text = List.foldl insertItem d.text (textItemsOf bss) := by
  induction bss generalizing d with
  | nil => simp [applyAll, textItemsOf]
  | cons bs rest ih =>
    have hstep : applyAll d (bs :: rest) = applyAll (ytransaction_apply d bs) rest := rfl
    rw [hstep]
    cases hdec : decodeUpdate bs with
    | ok u =>
      have h1 : ytransaction_apply d bs = applyUpdate d u := by
        simp [ytransaction_apply, hdec]
      have h2 : textItemsOf (bs :: rest) = u.text ++ textItemsOf rest := by
        simp [textItemsOf, List.filterMap_cons, hdec, okOf]
      rw [h1, ih, h2, List.foldl_append]
      rfl
    | error e =>
      have h1 : ytransaction_apply d bs = d := by
        simp [ytransaction_apply, hdec]
      have h2 : textItemsOf (bs :: rest) = textItemsOf rest := by
        simp [textItemsOf, List.filterMap_cons, hdec, okOf]
      rw [h1, ih, h2]

theorem applyAll_arr (d : YDoc) (bss : List (List Nat)) :
    (applyAll d bss).arr = List.foldl insertItem d.arr (arrItemsOf bss) := by
  induction bss generalizing d with
  | nil => simp [applyAll, arrItemsOf]
  | cons bs rest ih =>
    have hstep : applyAll d (bs :: rest) = applyAll (ytransaction_apply d bs) rest := rfl
    rw [hstep]
    cases hdec : decodeUpdate bs with
    | ok u =>
      have h1 : ytransaction_apply d bs = applyUpdate d u := by
        simp [ytransaction_apply, hdec]
      have h2 : arrItemsOf (bs :: rest) = u.arr ++ arrItemsOf rest := by
        simp [arrItemsOf, List.filterMap_cons, hdec, okOf]
      rw [h1, ih, h2, List.foldl_append]
      rfl
    | error e =>
      have h1 : ytransaction_apply d bs = d := by
        simp [ytransaction_apply, hdec]
      have h2 : arrItemsOf (bs :: rest) = arrItemsOf rest := by
        simp [arrItemsOf, List.filterMap_cons, hdec, okOf]
      rw [h1, ih, h2]

theorem applyAll_map (d : YDoc) (bss : List (List Nat)) :
    (applyAll d bss).map = List.foldl insertItem d.map (mapItemsOf bss) := by
  induction bss generalizing d with
  | nil => simp [applyAll, mapItemsOf]
  | cons bs rest ih =>
    have hstep : applyAll d (bs :: rest) = applyAll (ytransaction_apply d bs) rest := rfl
    rw [hstep]
    cases hdec : decodeUpdate bs with
    | ok u =>
      have h1 : ytransaction_apply d bs = applyUpdate d u := by
        simp [ytransaction_apply, hdec]
      have h2 : mapItemsOf (bs :: rest) = u.map ++ mapItemsOf rest := by
        simp [mapItemsOf, List.filterMap_cons, hdec, okOf]
      rw [h1, ih, h2, List.foldl_append]
      rfl
    | error e =>
      have h1 : ytransaction_apply d bs = d := by
        simp [ytransaction_apply, hdec]
      have h2 : mapItemsOf (bs :: rest) = mapItemsOf rest := by
        simp [mapItemsOf, List.filterMap_cons, hdec, okOf]
      rw [h1, ih, h2]

theorem foldl_insertItem_perm {α : Type} [DecidableEq α] {l1 l2 : List (YItem α)}
    (hperm : l1.Perm l2) (hco : coherentb l1 = true) (s : List (YItem α)) :
    List.foldl insertItem s l1 = List.foldl insertItem s l2 := by
  apply hperm.foldl_eq'
  intro x hx y hy z
  exact insertItem_comm z x y (fun hid => coherentb_spec hco x hx y hy hid)

theorem idLtb_iff (a b : YId) :
    idLtb a b = true ↔ (a.client < b.client ∨ (a.client = b.client ∧ a.clock < b.clock)) := by
  simp [idLtb]

theorem idLtb_ne {a b : YId} (h : idLtb a b = true) : a ≠ b := by
  intro hab
  subst hab
  simp [idLtb] at h

theorem idLeb_false_of_ltb {a b : YId} (h : idLtb a b = true) : idLeb b a = false := by
  simp [idLtb] at h
  simp [idLeb]
  omega

theorem hasId_false_of {α : Type} [DecidableEq α] (s : List (YItem α)) (i : YId)
    (h : ∀ y ∈ s, y.id ≠ i) : hasId s i = false := by
  simp only [hasId, List.any_eq_false]
  intro y hy
  simpa using h y hy

theorem ordIns_append {α : Type} [DecidableEq α] (x : YItem α) (s : List (YItem α))
    (h : ∀ y ∈ s, idLeb x.id y.id = false) : ordIns x s = s ++ [x] := by
  induction s with
  | nil => rfl
  | cons y ys ih =>
    have hy : idLeb x.id y.id = false := h y (by simp)
    have ih2 := ih (fun z hz => h z (by simp [hz]))
    simp [ordIns, hy, ih2]

theorem foldl_insertItem_append {α : Type} [DecidableEq α] (l : List (YItem α)) :
    ∀ acc : List (YItem α),
    (∀ x ∈ acc, ∀ y ∈ l, idLtb x.id y.id = true) →
    List.Pairwise (fun a b => idLtb a.id b.id = true) l →
    List.foldl insertItem acc l = acc ++ l := by
  induction l with
  | nil => intro acc _ _; simp
  | cons y ys ih =>
    intro acc hmono hsort
    obtain ⟨hhead, htail⟩ := List.pairwise_cons.mp hsort
    have hni : hasId acc y.id = false := by
      apply hasId_false_of
      intro z hz
      exact idLtb_ne (hmono z hz y (by simp))
    have hord : ordIns y acc = acc ++ [y] := by
      apply ordIns_append
      intro z hz
      exact idLeb_false_of_ltb (hmono z hz y (by simp))
    have hstep : insertItem acc y = acc ++ [y] := by
      simp [insertItem, hni, hord]
    simp only [List.foldl_cons, hstep]
    rw [ih (acc ++ [y]) ?hm htail]
    · simp
    · intro x hx z hz
      rcases List.mem_append.mp hx with hx2 | hx2
      · exact hmono x hx2 z (by simp [hz])
      · have : x = y := by simpa using hx2
        subst this
        exact hhead z hz

theorem coherent_of_pairwise {α : Type} [DecidableEq α] {l : List (YItem α)}
    (h : List.Pairwise (fun a b => idLtb a.id b.id = true) l) :
    ∀ x ∈ l, ∀ y ∈ l, x.id = y.id → x = y := by
  induction l with
  | nil => simp
  | cons a t ih =>
    obtain ⟨ha, ht⟩ := List.pairwise_cons.mp h
    intro x hx y hy hid
    rcases List.mem_cons.mp hx with rfl | hx2 <;> rcases List.mem_cons.mp hy with rfl | hy2
    · rfl
    · exact absurd hid (idLtb_ne (ha y hy2))
    · exact absurd hid.symm (idLtb_ne (ha x hx2))
    · exact ih ht x hx2 y hy2 hid

theorem mkRun_length {α : Type} (client : Nat) :
    ∀ (cs : List α) (k : Nat) (lo ro : Option YId),
    (mkRun client k lo ro cs).length = cs.length := by
  intro cs
  induction cs with
  | nil => intro k lo ro; rfl
  | cons x xs ih => intro k lo ro; simp [mkRun, ih]

theorem mkRun_mem {α : Type} (client : Nat) :
    ∀ (cs : List α) (k : Nat) (lo ro : Option YId),
    ∀ it ∈ mkRun client k lo ro cs,
      it.id.client = client ∧ k ≤ it.id.clock ∧ it.id.clock < k + cs.length ∧
        it.deleted = false ∧ it.rightOrigin = ro := by
  intro cs
  induction cs with
  | nil => intro k lo ro it hit; simp [mkRun] at hit
  | cons x xs ih =>
    intro k lo ro it hit
    simp only [mkRun, List.mem_cons] at hit
    rcases hit with rfl | hit2
    · refine ⟨rfl, Nat.le_refl k, ?_, rfl, rfl⟩
      simp only [List.length_cons]
      omega
    · obtain ⟨h1, h2, h3, h4, h5⟩ := ih (k + 1) (some ⟨client, k⟩) ro it hit2
      refine ⟨h1, by omega, ?_, h4, h5⟩
      simp only [List.length_cons] at h3 ⊢
      omega

theorem mkRun_map_content {α : Type} (client : Nat) :
    ∀ (cs : List α) (k : Nat) (lo ro : Option YId),
    (mkRun client k lo ro cs).map (fun it => it.content) = cs := by
  intro cs
  induction cs with
  | nil => intro k lo ro; rfl
  | cons x xs ih => intro k lo ro; simp [mkRun, ih]

theorem mkRun_pairwise {α : Type} (client : Nat) :
    ∀ (cs : List α) (k : Nat) (lo ro : Option YId),
    List.Pairwise (fun a b => idLtb a.id b.id = true) (mkRun client k lo ro cs) := by
  intro cs
  induction cs with
  | nil => intro k lo ro; simp [mkRun]
  | cons x xs ih =>
    intro k lo ro
    simp only [mkRun]
    refine List.pairwise_cons.mpr ⟨?_, ih (k + 1) (some ⟨client, k⟩) ro⟩
    intro b hb
    have h := mkRun_mem client xs (k + 1) (some ⟨client, k⟩) ro b hb
    rw [idLtb_iff]
    right
    constructor
    · exact h.1.symm
    · show k < b.id.clock
      have hk := h.2.1
      omega

theorem findIdx?_prefix {β : Type} (p : β → Bool) (x : β) (r : List β) (hx : p x = true) :
    ∀ (l : List β) (i : Nat), (∀ y ∈ l, p y = false) →
    List.findIdx? p (l ++ x :: r) i = some (i + l.length) := by
  intro l
  induction l with
  | nil => intro i _; simp [hx]
  | cons h t ih =>
    intro i hl
    have hh : p h = false := hl h (by simp)
    simp only [List.cons_append, List.findIdx?_cons, hh]
    rw [if_neg (by simp)]
    rw [ih (i + 1) (fun y hy => hl y (by simp [hy]))]
    congr 1
    simp [List.length_cons]
    omega

theorem any_of_findIdx? {β : Type} (p : β → Bool) :
    ∀ (l : List β) (i j : Nat), List.findIdx? p l i = some j → l.any p = true := by
  intro l
  induction l with
  | nil => intro i j h; simp at h
  | cons h t ih =>
    intro i j hfi
    cases hp : p h with
    | true => simp [hp]
    | false =>
      simp only [List.findIdx?_cons, hp] at hfi
      rw [if_neg (by simp)] at hfi
      simp only [List.any_cons, hp, Bool.false_or]
      exact ih (i + 1) j hfi

theorem linAux_run {α : Type} [DecidableEq α] :
    ∀ (cs : List α) (c k : Nat) (anchor : Option YId) (front tail pendRest : List (YItem α))
      (fuel : Nat),
    (match anchor with
     | none => front = []
     | some o => front ≠ [] ∧
         List.findIdx? (fun it => it.id == o) (front ++ tail) = some (front.length - 1)) →
    (∀ it ∈ front ++ tail, it.id.client ≠ c ∨ it.id.clock < k) →
    (tail = [] ∨ ∃ hh tl, tail = hh :: tl ∧ hh.origin = none ∧ hh.id.client < c) →
    linearizeAux (cs.length + fuel) (front ++ tail) (mkRun c k anchor none cs ++ pendRest)
      = linearizeAux fuel ((front ++ mkRun c k anchor none cs) ++ tail) pendRest := by
  intro cs
  induction cs with
  | nil =>
    intro c k anchor front tail pendRest fuel _ _ _
    simp [mkRun]
  | cons x xs ih =>
    intro c k anchor front tail pendRest fuel h1 h2 h3
    have hb : mkRun c k anchor none (x :: xs)
        = (⟨⟨c, k⟩, anchor, none, x, false⟩ : YItem α)
          :: mkRun c (k + 1) (some ⟨c, k⟩) none xs := rfl
    have hor : originOk (front ++ tail) anchor = true := by
      cases anchor with
      | none => rfl
      | some o =>
        obtain ⟨hne, hfi⟩ := h1
        exact any_of_findIdx? (fun it => it.id == o) (front ++ tail) 0 (front.length - 1) hfi
    have hready : ready (front ++ tail) (⟨⟨c, k⟩, anchor, none, x, false⟩ : YItem α) = true := by
      show originOk (front ++ tail) anchor && originOk (front ++ tail) none = true
      rw [hor]
      rfl
    have hfind : (mkRun c k anchor none (x :: xs) ++ pendRest).find?
        (fun b => ready (front ++ tail) b)
        = some (⟨⟨c, k⟩, anchor, none, x, false⟩ : YItem α) := by
      rw [hb, List.cons_append]
      exact List.find?_cons_of_pos _ hready
    have hskip : skipLen (⟨⟨c, k⟩, anchor, none, x, false⟩ : YItem α) tail [] = 0 := by
      rcases h3 with rfl | ⟨hh, tl, rfl, hor0, hcl⟩
      · rfl
      · have hnlt : ¬ (c < hh.id.client) := by omega
        simp only [skipLen, hor0]
        rw [if_neg (by simp), if_neg ?hcond]
        case hcond =>
          cases anchor with
          | none => simp [hnlt]
          | some o => simp
    have hint : integrate (front ++ tail) (⟨⟨c, k⟩, anchor, none, x, false⟩ : YItem α)
        = front ++ (⟨⟨c, k⟩, anchor, none, x, false⟩ : YItem α) :: tail := by
      cases anchor with
      | none =>
        have hf : front = [] := h1
        subst hf
        simp only [integrate, List.nil_append, List.drop_zero, Nat.zero_add]
        rw [hskip]
        simp [insertAt]
      | some o =>
        obtain ⟨hne, hfi⟩ := h1
        have hlen1 : 1 ≤ front.length := by
          cases front with
          | nil => exact absurd rfl hne
          | cons f fs => simp [List.length_cons]
        have hposval : (match List.findIdx? (fun it => it.id == o) (front ++ tail) with
            | some j => j + 1
            | none => 0) = front.length := by
          rw [hfi]
          show front.length - 1 + 1 = front.length
          omega
        simp only [integrate]
        rw [hposval, List.drop_left, hskip, Nat.add_zero]
        simp [insertAt, List.take_left, List.drop_left]
    have herase : (mkRun c k anchor none (x :: xs) ++ pendRest).erase
        (⟨⟨c, k⟩, anchor, none, x, false⟩ : YItem α)
        = mkRun c (k + 1) (some ⟨c, k⟩) none xs ++ pendRest := by
      rw [hb, List.cons_append]
      exact List.erase_cons_head _ _
    have hfuel : (x :: xs).length + fuel = Nat.succ (xs.length + fuel) := by
      simp only [List.length_cons]
      omega
    have hstep : linearizeAux ((x :: xs).length + fuel) (front ++ tail)
        (mkRun c k anchor none (x :: xs) ++ pendRest)
        = linearizeAux (xs.length + fuel)
            (front ++ (⟨⟨c, k⟩, anchor, none, x, false⟩ : YItem α) :: tail)
            (mkRun c (k + 1) (some ⟨c, k⟩) none xs ++ pendRest) := by
      rw [hfuel]
      simp only [linearizeAux, hfind]
      rw [hint, herase]
    rw [hstep]
    have hA : (front ++ [(⟨⟨c, k⟩, anchor, none, x, false⟩ : YItem α)]) ≠ [] ∧
        List.findIdx? (fun it => it.id == (⟨c, k⟩ : YId))
          ((front ++ [(⟨⟨c, k⟩, anchor, none, x, false⟩ : YItem α)]) ++ tail)
          = some ((front ++ [(⟨⟨c, k⟩, anchor, none, x, false⟩ : YItem α)]).length - 1) := by
      constructor
      · simp
      · have hfr : ∀ y ∈ front, (y.id == (⟨c, k⟩ : YId)) = false := by
          intro y hy
          have hy2 := h2 y (List.mem_append.mpr (Or.inl hy))
          have hne : y.id ≠ ⟨c, k⟩ := by
            intro he
            rcases hy2 with hcl | hck
            · exact hcl (by rw [he])
            · rw [he] at hck
              exact absurd hck (by simp)
          simpa using hne
        have hfp := findIdx?_prefix (fun it => it.id == (⟨c, k⟩ : YId))
          (⟨⟨c, k⟩, anchor, none, x, false⟩ : YItem α) tail (by simp) front 0 hfr
        rw [List.append_assoc, List.singleton_append, hfp]
        simp [List.length_append, List.length_cons]
    have hB : ∀ it ∈ (front ++ [(⟨⟨c, k⟩, anchor, none, x, false⟩ : YItem α)]) ++ tail,
        it.id.client ≠ c ∨ it.id.clock < k + 1 := by
      intro it hit
      rw [List.append_assoc, List.singleton_append] at hit
      rcases List.mem_append.mp hit with hf | hrest
      · rcases h2 it (List.mem_append.mpr (Or.inl hf)) with hcl | hck
        · exact Or.inl hcl
        · exact Or.inr (by omega)
      · rcases List.mem_cons.mp hrest with rfl | ht
        · right
          show k < k + 1
          omega
        · rcases h2 it (List.mem_append.mpr (Or.inr ht)) with hcl | hck
          · exact Or.inl hcl
          · exact Or.inr (by omega)
    have ih2 := ih c (k + 1) (some ⟨c, k⟩)
      (front ++ [(⟨⟨c, k⟩, anchor, none, x, false⟩ : YItem α)]) tail pendRest fuel hA hB h3
    rw [List.append_assoc, List.singleton_append] at ih2
    rw [ih2, hb]
    simp [List.append_assoc]

theorem linearize_two_runs {α : Type} [DecidableEq α] (c1 c2 : Nat) (s1 s2 : List α)
    (hc : c1 < c2) :
    linearize (mkRun c1 0 none none s1 ++ mkRun c2 0 none none s2)
      = mkRun c2 0 none none s2 ++ mkRun c1 0 none none s1 := by
  unfold linearize
  have hlen : (mkRun c1 0 none none s1 ++ mkRun c2 0 none none s2).length
      = s1.length + s2.length := by
    simp [List.length_append, mkRun_length]
  rw [hlen]
  have hph1 := linAux_run s1 c1 0 none [] [] (mkRun c2 0 none none s2) s2.length rfl
    (by intro it hit; simp at hit) (Or.inl rfl)
  simp only [List.nil_append, List.append_nil] at hph1
  rw [hph1]
  have hB : ∀ it ∈ ([] : List (YItem α)) ++ mkRun c1 0 none none s1,
      it.id.client ≠ c2 ∨ it.id.clock < 0 := by
    intro it hit
    simp only [List.nil_append] at hit
    have h := mkRun_mem c1 s1 0 none none it hit
    left
    rw [h.1]
    omega
  have hC : mkRun c1 0 none none s1 = []
      ∨ ∃ hh tl, mkRun c1 0 none none s1 = hh :: tl ∧ hh.origin = none ∧ hh.id.client < c2 := by
    cases s1 with
    | nil => exact Or.inl rfl
    | cons y ys =>
      right
      exact ⟨_, _, rfl, rfl, hc⟩
  have hph2 := linAux_run s2 c2 0 none [] (mkRun c1 0 none none s1) [] 0 rfl hB hC
  simp only [List.nil_append, List.append_nil, Nat.add_zero] at hph2
  rw [hph2]
  rfl

theorem foldl_insertItem_fresh {α : Type} [DecidableEq α] (l : List (YItem α))
    (hs : List.Pairwise (fun a b => idLtb a.id b.id = true) l) :
    List.foldl insertItem [] l = l := by
  have h := foldl_insertItem_append l [] (by intro x hx; simp at hx) hs
  simpa using h

theorem foldl_insertItem_perm_of {α : Type} [DecidableEq α] {l1 l2 : List (YItem α)}
    (hperm : l1.Perm l2)
    (hco : ∀ x ∈ l1, ∀ y ∈ l1, x.id = y.id → x = y) (s : List (YItem α)) :
    List.foldl insertItem s l1 = List.foldl insertItem s l2 := by
  apply hperm.foldl_eq'
  intro x hx y hy z
  exact insertItem_comm z x y (fun hid => hco x hx y hy hid)

theorem two_runs_pairwise {α : Type} [DecidableEq α] (c1 c2 : Nat) (s1 s2 : List α)
    (hc : c1 < c2) :
    List.Pairwise (fun a b => idLtb a.id b.id = true)
      (mkRun c1 0 none none s1 ++ mkRun c2 0 none none s2) := by
  rw [List.pairwise_append]
  refine ⟨mkRun_pairwise c1 s1 0 none none, mkRun_pairwise c2 s2 0 none none, ?_⟩
  intro x hx y hy
  have hx2 := mkRun_mem c1 s1 0 none none x hx
  have hy2 := mkRun_mem c2 s2 0 none none y hy
  rw [idLtb_iff]
  left
  rw [hx2.1, hy2.1]
  exact hc

theorem two_runs_store {α : Type} [DecidableEq α] (c1 c2 : Nat) (s1 s2 : List α)
    (hc : c1 < c2) :
    List.foldl insertItem (mkRun c1 0 none none s1) (mkRun c2 0 none none s2)
      = mkRun c1 0 none none s1 ++ mkRun c2 0 none none s2 := by
  apply foldl_insertItem_append
  · intro x hx y hy
    have hx2 := mkRun_mem c1 s1 0 none none x hx
    have hy2 := mkRun_mem c2 s2 0 none none y hy
    rw [idLtb_iff]
    left
    rw [hx2.1, hy2.1]
    exact hc
  · exact mkRun_pairwise c2 s2 0 none none

theorem two_runs_store_rev {α : Type} [DecidableEq α] (c1 c2 : Nat) (s1 s2 : List α)
    (hc : c1 < c2) :
    List.foldl insertItem (mkRun c2 0 none none s2) (mkRun c1 0 none none s1)
      = mkRun c1 0 none none s1 ++ mkRun c2 0 none none s2 := by
  have hpair := two_runs_pairwise c1 c2 s1 s2 hc
  have hco12 := coherent_of_pairwise hpair
  have hperm : (mkRun c2 0 none none s2 ++ mkRun c1 0 none none s1).Perm
      (mkRun c1 0 none none s1 ++ mkRun c2 0 none none s2) := List.perm_append_comm
  have hco : ∀ x ∈ mkRun c2 0 none none s2 ++ mkRun c1 0 none none s1,
      ∀ y ∈ mkRun c2 0 none none s2 ++ mkRun c1 0 none none s1, x.id = y.id → x = y := by
    intro x hx y hy hid
    have hx2 : x ∈ mkRun c1 0 none none s1 ++ mkRun c2 0 none none s2 :=
      List.mem_append.mpr (Or.symm (List.mem_append.mp hx))
    have hy2 : y ∈ mkRun c1 0 none none s1 ++ mkRun c2 0 none none s2 :=
      List.mem_append.mpr (Or.symm (List.mem_append.mp hy))
    exact hco12 x hx2 y hy2 hid
  calc List.foldl insertItem (mkRun c2 0 none none s2) (mkRun c1 0 none none s1)
      = List.foldl insertItem [] (mkRun c2 0 none none s2 ++ mkRun c1 0 none none s1) := by
        rw [List.foldl_append, foldl_insertItem_fresh _ (mkRun_pairwise c2 s2 0 none none)]
    _ = List.foldl insertItem [] (mkRun c1 0 none none s1 ++ mkRun c2 0 none none s2) :=
        foldl_insertItem_perm_of hperm hco []
    _ = mkRun c1 0 none none s1 ++ mkRun c2 0 none none s2 := foldl_insertItem_fresh _ hpair

theorem textCharsOf_two_runs (c1 c2 : Nat) (s1 s2 : List Char) (hc : c1 < c2) :
    textCharsOf (mkRun c1 0 none none s1 ++ mkRun c2 0 none none s2) = s2 ++ s1 := by
  unfold textCharsOf visibleOf
  rw [linearize_two_runs c1 c2 s1 s2 hc, List.filter_append, List.map_append]
  have f1 : (mkRun c2 0 none none s2).filter (fun it => !it.deleted)
      = mkRun c2 0 none none s2 := by
    apply List.filter_eq_self.mpr
    intro it hit
    have h := mkRun_mem c2 s2 0 none none it hit
    simp [h.2.2.2.1]
  have f2 : (mkRun c1 0 none none s1).filter (fun it => !it.deleted)
      = mkRun c1 0 none none s1 := by
    apply List.filter_eq_self.mpr
    intro it hit
    have h := mkRun_mem c1 s1 0 none none it hit
    simp [h.2.2.2.1]
  rw [f1, f2, mkRun_map_content, mkRun_map_content]

theorem seedText_text (c : Nat) (s : String) :
    (seedText c s).text = mkRun c 0 none none s.data := by
  show List.foldl insertItem [] (mkRun c 0 none none s.data) = mkRun c 0 none none s.data
  exact foldl_insertItem_fresh _ (mkRun_pairwise c s.data 0 none none)

theorem updateFrom_nil_text (d : YDoc) : (updateFrom d []).text = d.text := by
  simp [updateFrom, covered]

theorem string_mk_append (a b : List Char) : String.mk (a ++ b) = String.mk a ++ String.mk b :=
  rfl

theorem string_mk_data (s : String) : String.mk s.data = s :=
  rfl

theorem decodeVarNat_encodeVarNatAux :
    ∀ (fuel n : Nat), n ≤ fuel →
    ∀ rest, decodeVarNat (encodeVarNatAux fuel n ++ rest) = some (n, rest) := by
  intro fuel
  induction fuel with
  | zero =>
    intro n hn rest
    have h0 : n = 0 := by omega
    subst h0
    simp [encodeVarNatAux, decodeVarNat]
  | succ f ih =>
    intro n hn rest
    by_cases h : n < 128
    · simp [encodeVarNatAux, h, decodeVarNat]
    · have hrec := ih (n / 128) (by omega)
      have hb : ¬ (n % 128 + 128 < 128) := by omega
      simp only [encodeVarNatAux, h, if_false, List.cons_append]
      simp [decodeVarNat, hb, hrec]
      omega

theorem decodeVarNat_encodeVarNat (n : Nat) :
    ∀ rest, decodeVarNat (encodeVarNat n ++ rest) = some (n, rest) :=
  decodeVarNat_encodeVarNatAux n n (Nat.le_refl n)

theorem decodeSvEntries_encode (sv : List (Nat × Nat)) :
    ∀ rest, decodeSvEntries sv.length (encodeSvEntries sv ++ rest) = some (sv, rest) := by
  induction sv with
  | nil => intro rest; simp [encodeSvEntries, decodeSvEntries]
  | cons p t ih =>
    intro rest
    obtain ⟨c, k⟩ := p
    simp [encodeSvEntries, decodeSvEntries, List.append_assoc,
      decodeVarNat_encodeVarNat, ih]

theorem svRoundtrip (sv : List (Nat × Nat)) :
    decodeStateVector (encodeStateVector sv) = some sv := by
  unfold decodeStateVector encodeStateVector
  rw [decodeVarNat_encodeVarNat sv.length (encodeSvEntries sv)]
  have h := decodeSvEntries_encode sv []
  rw [List.append_nil] at h
  simp [h]

theorem clkLtb_asymm {a b : YId} (h : clkLtb a b = true) : clkLtb b a = false := by
  simp [clkLtb] at h ⊢
  omega

theorem mapWinner_mem (k : String) :
    ∀ (ws : List (YItem (String × Int))) (w : YItem (String × Int)),
    mapWinner ws k = some w → w ∈ ws ∧ w.content.fst = k := by
  intro ws
  induction ws with
  | nil => intro w h; simp [mapWinner] at h
  | cons a t ih =>
    intro w h
    simp only [mapWinner] at h
    cases hw : mapWinner t k with
    | none =>
      rw [hw] at h
      cases hk : a.content.fst == k with
      | true =>
        rw [hk] at h
        simp at h
        subst h
        exact ⟨by simp, by simpa using hk⟩
      | false =>
        rw [hk] at h
        simp at h
    | some b =>
      rw [hw] at h
      obtain ⟨hbmem, hbk⟩ := ih b hw
      by_cases hcond : (a.content.fst == k && clkLtb b.id a.id) = true
      · simp only [hcond, if_true] at h
        simp at h
        subst h
        simp only [Bool.and_eq_true] at hcond
        exact ⟨by simp, by simpa using hcond.1⟩
      · simp only [hcond, if_false] at h
        simp at h
        subst h
        exact ⟨by simp [hbmem], hbk⟩

theorem mapWinner_lww (k : String) :
    ∀ (ws : List (YItem (String × Int))) (w : YItem (String × Int)),
    List.Pairwise (fun a b => a.id ≠ b.id) ws →
    w ∈ ws → w.content.fst = k →
    (∀ v ∈ ws, v.content.fst = k → v ≠ w → clkLtb v.id w.id = true) →
    mapWinner ws k = some w := by
  intro ws
  induction ws with
  | nil => intro w _ hmem; simp at hmem
  | cons a t ih =>
    intro w hnd hmem hk hmax
    obtain ⟨hnd1, hnd2⟩ := List.pairwise_cons.mp hnd
    rcases List.mem_cons.mp hmem with rfl | hmem2
    · cases hw : mapWinner t k with
      | none =>
        simp only [mapWinner, hw]
        rw [if_pos (by simp [hk])]
      | some b =>
        obtain ⟨hbmem, hbk⟩ := mapWinner_mem k t b hw
        have hbne : b ≠ w := by
          intro he
          exact (hnd1 b hbmem) (by rw [he])
        have hlt : clkLtb b.id w.id = true :=
          hmax b (by simp [hbmem]) hbk hbne
        simp only [mapWinner, hw]
        rw [if_pos (by simp [hk, hlt])]
    · have hw : mapWinner t k = some w :=
        ih w hnd2 hmem2 hk (fun v hv hvk hvne => hmax v (by simp [hv]) hvk hvne)
      simp only [mapWinner, hw]
      by_cases hak : (a.content.fst == k) = true
      · have hane : a ≠ w := by
          intro he
          exact (hnd1 w hmem2) (by rw [he])
        have hlt : clkLtb a.id w.id = true := hmax a (by simp) (by simpa using hak) hane
        have hno : clkLtb w.id a.id = false := clkLtb_asymm hlt
        rw [hak, hno]
        simp
      · have hak2 : (a.content.fst == k) = false := by
          cases hv : a.content.fst == k with
          | true => exact absurd hv hak
          | false => rfl
        rw [hak2]
        simp

theorem charPosOfByte_gt (l : List Char) : ∀ n, sumBytes l < n → charPosOfByte l n = none := by
  induction l with
  | nil =>
    intro n h
    cases n with
    | zero => simp [sumBytes] at h
    | succ m => rfl
  | cons c cs ih =>
    intro n h
    cases n with
    | zero => simp [sumBytes] at h
    | succ m =>
      simp only [charPosOfByte]
      by_cases hle : c.utf8Size ≤ m + 1
      · rw [if_pos hle, ih (m + 1 - c.utf8Size) ?hlt]
        · rfl
        case hlt =>
          have hsum : c.utf8Size + sumBytes cs < m + 1 := h
          omega
      · rw [if_neg hle]

theorem charPosOfByte_sum (l : List Char) : charPosOfByte l (sumBytes l) = some l.length := by
  induction l with
  | nil => rfl
  | cons c cs ih =>
    have hpos : 0 < c.utf8Size := Char.utf8Size_pos c
    cases hsum : c.utf8Size + sumBytes cs with
    | zero => omega
    | succ m =>
      show charPosOfByte (c :: cs) (sumBytes (c :: cs)) = some (cs.length + 1)
      rw [show sumBytes (c :: cs) = Nat.succ m from hsum]
      simp only [charPosOfByte]
      rw [if_pos (by omega), show Nat.succ m - c.utf8Size = sumBytes cs from by omega, ih]
      rfl

theorem sumBytes_go (l : List Char) : sumBytes l = String.utf8ByteSize.go l := by
  induction l with
  | nil => rfl
  | cons c cs ih =>
    show c.utf8Size + sumBytes cs = String.utf8ByteSize.go cs + c.utf8Size
    rw [ih]
    omega

theorem ytext_insert_at_len (d : YDoc) (s : String) :
    (ytext_insert d (ytext_len d) s).isSome = true := by
  unfold ytext_insert
  rw [show ytext_len d = sumBytes (textChars d) from rfl, charPosOfByte_sum]
  rfl

theorem ytext_insert_oob (d : YDoc) (i : Nat) (s : String) (h : ytext_len d < i) :
    ytext_insert d i s = none := by
  unfold ytext_insert
  rw [charPosOfByte_gt (textChars d) i h]

theorem runOps_append_fail (d : YDoc) (ops : List YOp) (op : YOp)
    (h : applyOp (runOps d ops) op = none) :
    runOps d (ops ++ [op]) = runOps d ops := by
  have h2 : applyOp (List.foldl tryOp d ops) op = none := h
  unfold runOps
  rw [List.foldl_append]
  show tryOp (List.foldl tryOp d ops) op = _
  simp [tryOp, h2]

/-- C1: Convergence.  For any two documents whose stores agree and any set
of update payloads, applying the same set of updates via
`ytransaction_apply` in any two delivery orders leaves every container's
content (Text string, Array contents, every Map key) identical in both
documents.  The theorem holds for all permutations of the delivery order,
which subsumes the orders in which every causal dependency is eventually
satisfiable; the coherence hypotheses state that the updates are honest:
blocks sharing an identifier are the same block (identifiers are globally
unique per the spec). -/
theorem claim1_convergence (d1 d2 : YDoc) (bss1 bss2 : List (List Nat))
    (ht : d1.text = d2.text) (ha : d1.arr = d2.arr) (hm : d1.map = d2.map)
    (hperm : bss1.Perm bss2)
    (hcT : coherentb (textItemsOf bss1) = true)
    (hcA : coherentb (arrItemsOf bss1) = true)
    (hcM : coherentb (mapItemsOf bss1) = true) :
    SameContents (applyAll d1 bss1) (applyAll d2 bss2) := by
  have hpT : (textItemsOf bss1).Perm (textItemsOf bss2) := by
    unfold textItemsOf
    exact (hperm.filterMap (fun bs => okOf (decodeUpdate bs))).flatMap_right (fun u => u.text)
  have hpA : (arrItemsOf bss1).Perm (arrItemsOf bss2) := by
    unfold arrItemsOf
    exact (hperm.filterMap (fun bs => okOf (decodeUpdate bs))).flatMap_right (fun u => u.arr)
  have hpM : (mapItemsOf bss1).Perm (mapItemsOf bss2) := by
    unfold mapItemsOf
    exact (hperm.filterMap (fun bs => okOf (decodeUpdate bs))).flatMap_right (fun u => u.map)
  have hT : (applyAll d1 bss1).text = (applyAll d2 bss2).text := by
    rw [applyAll_text, applyAll_text, ht]
    exact foldl_insertItem_perm hpT hcT d2.text
  have hA : (applyAll d1 bss1).arr = (applyAll d2 bss2).arr := by
    rw [applyAll_arr, applyAll_arr, ha]
    exact foldl_insertItem_perm hpA hcA d2.arr
  have hM : (applyAll d1 bss1).map = (applyAll d2 bss2).map := by
    rw [applyAll_map, applyAll_map, hm]
    exact foldl_insertItem_perm hpM hcM d2.map
  refine ⟨?_, ?_, ?_⟩
  · show String.mk (textCharsOf (applyAll d1 bss1).text) = _
    rw [hT]
    rfl
  · show (visibleOf (applyAll d1 bss1).arr).map (fun it => it.content) = _
    rw [hA]
    rfl
  · intro k
    show mapGetOf (applyAll d1 bss1).map k = _
    rw [hM]
    rfl

/-- Witness for C1: two concrete updates, delivered in the two possible
orders to two fresh documents, leave identical contents. -/
theorem claim1_convergence_witness :
    coherentb (textItemsOf [demoBytes1, demoBytes2]) = true ∧
    SameContents (applyAll (ydoc_new_with_id 1) [demoBytes1, demoBytes2])
      (applyAll (ydoc_new_with_id 2) [demoBytes2, demoBytes1]) :=
  ⟨by decide,
   claim1_convergence (ydoc_new_with_id 1) (ydoc_new_with_id 2) [demoBytes1, demoBytes2]
     [demoBytes2, demoBytes1] rfl rfl rfl (List.Perm.swap demoBytes2 demoBytes1 [])
     (by decide) (by decide) (by decide)⟩

/-- C2: Interleave resistance of concurrent sequence inserts.  Two replicas
with an empty shared Text (client ids c1 < c2) concurrently insert their own
strings at index 0; after exchanging the resulting updates both replicas
converge to the same final sequence, the whole of the higher client's string
followed by the whole of the lower client's string — neither insert's
characters are interleaved with the other's.  For the claim's example
(client 1 inserts "ab", client 2 inserts "X") the common result is "Xab",
one of the two unmixed outcomes. -/
theorem claim2_no_interleave (c1 c2 : Nat) (s1 s2 : String) (hc : c1 < c2) :
    ytext_string (applyUpdate (seedText c1 s1) (updateFrom (seedText c2 s2) [])) = s2 ++ s1 ∧
    ytext_string (applyUpdate (seedText c2 s2) (updateFrom (seedText c1 s1) [])) = s2 ++ s1 := by
  have h1 : (applyUpdate (seedText c1 s1) (updateFrom (seedText c2 s2) [])).text
      = mkRun c1 0 none none s1.data ++ mkRun c2 0 none none s2.data := by
    show List.foldl insertItem (seedText c1 s1).text (updateFrom (seedText c2 s2) []).text = _
    rw [updateFrom_nil_text, seedText_text, seedText_text]
    exact two_runs_store c1 c2 s1.data s2.data hc
  have h2 : (applyUpdate (seedText c2 s2) (updateFrom (seedText c1 s1) [])).text
      = mkRun c1 0 none none s1.data ++ mkRun c2 0 none none s2.data := by
    show List.foldl insertItem (seedText c2 s2).text (updateFrom (seedText c1 s1) []).text = _
    rw [updateFrom_nil_text, seedText_text, seedText_text]
    exact two_runs_store_rev c1 c2 s1.data s2.data hc
  constructor
  · show String.mk (textCharsOf
      (applyUpdate (seedText c1 s1) (updateFrom (seedText c2 s2) [])).text) = s2 ++ s1
    rw [h1, textCharsOf_two_runs c1 c2 s1.data s2.data hc, string_mk_append,
      string_mk_data, string_mk_data]
  · show String.mk (textCharsOf
      (applyUpdate (seedText c2 s2) (updateFrom (seedText c1 s1) [])).text) = s2 ++ s1
    rw [h2, textCharsOf_two_runs c1 c2 s1.data s2.data hc, string_mk_append,
      string_mk_data, string_mk_data]

/-- Witness for C2 at the claim's example: client 1 inserts "ab", client 2
inserts "X"; both replicas end with "Xab". -/
theorem claim2_no_interleave_witness :
    (1 : Nat) < 2 ∧
    ytext_string (applyUpdate (seedText 1 "ab") (updateFrom (seedText 2 "X") [])) = "X" ++ "ab" ∧
    ytext_string (applyUpdate (seedText 2 "X") (updateFrom (seedText 1 "ab") [])) = "X" ++ "ab" :=
  ⟨by decide, (claim2_no_interleave 1 2 "ab" "X" (by decide)).1,
    (claim2_no_interleave 1 2 "ab" "X" (by decide)).2⟩

/-- C3: Last-write-wins for map registers.  In general, the surviving value
of a key is the write that every other write to the same key precedes in the
(clock, client) order (higher clock wins, ties broken by higher client id);
and in the claim's scenario, when client 1 sets k=1 at clock 5 and client 2
concurrently sets k=2 at clock 5, after exchanging updates `ymap_get`
returns 2 on both replicas. -/
theorem claim3_lww :
    (∀ (d : YDoc) (k : String) (w : YItem (String × Int)),
      List.Pairwise (fun a b => a.id ≠ b.id) d.map →
      w ∈ d.map → w.content.fst = k →
      (∀ v ∈ d.map, v.content.fst = k → v ≠ w → clkLtb v.id w.id = true) →
      ymap_get d k = some w.content.snd) ∧
    ymap_get (applyUpdate (mapSeed 1 1) (updateFrom (mapSeed 2 2) [])) "k" = some 2 ∧
    ymap_get (applyUpdate (mapSeed 2 2) (updateFrom (mapSeed 1 1) [])) "k" = some 2 := by
  refine ⟨?_, by decide, by decide⟩
  intro d k w hnd hmem hk hmax
  show mapGetOf d.map k = some w.content.snd
  unfold mapGetOf
  rw [mapWinner_lww k d.map w hnd hmem hk hmax]
  rfl

/-- Witness for C3's general last-write-wins rule at a concrete single-write
store. -/
theorem claim3_lww_witness :
    ymap_get (mapSeed 1 1) "k"
      = some ((⟨⟨1, 5⟩, none, none, ("k", 1), false⟩ : YItem (String × Int)).content.snd) :=
  claim3_lww.1 (mapSeed 1 1) "k" ⟨⟨1, 5⟩, none, none, ("k", 1), false⟩
    (by decide) (by decide) (by decide) (by decide)

/-- C4: Idempotence of update application.  For every document state and
every update payload, applying the same payload twice via
`ytransaction_apply` yields exactly the same document state as applying it
once (a block whose identifier is already present is never integrated
again). -/
theorem claim4_idempotent (d : YDoc) (bs : List Nat) :
    ytransaction_apply (ytransaction_apply d bs) bs = ytransaction_apply d bs := by
  cases hdec : decodeUpdate bs with
  | ok u =>
    simp only [ytransaction_apply, hdec]
    simp only [applyUpdate, foldl_insertItem_idem]
  | error e =>
    simp only [ytransaction_apply, hdec]

/-- C5: State-vector codec round-trip.  Decoding the bytes produced by the
lib0 v1 state-vector encoding yields the original state vector, both for an
arbitrary vector and for the vector serialized by
`ytransaction_state_vector_v1`. -/
theorem claim5_sv_roundtrip :
    (∀ sv : List (Nat × Nat), decodeStateVector (encodeStateVector sv) = some sv) ∧
    (∀ d : YDoc, decodeStateVector (ytransaction_state_vector_v1 d) = some (computeSV d)) :=
  ⟨fun sv => svRoundtrip sv, fun d => svRoundtrip (computeSV d)⟩

/-- C6 counterexample: the claim says committing a transaction returns the
encoded update bytes, but the header declares
`void ytransaction_commit(YTransaction *txn)` — commit returns no payload at
all.  At a concrete freshly opened document the returned payload component
is `none`, so no update bytes are returned. -/
theorem claim6_counterexample :
    (ytransaction_commit (ytransaction_new (ydoc_new_with_id 1))).2 = none :=
  rfl

/-- C6 amended: committing runs the (content-invariant) compaction and
releases the document for a new transaction, but returns no update payload
(the C signature returns void); container contents are unchanged by the
commit.  Update bytes are obtained separately via
`ytransaction_state_diff_v1`. -/
theorem claim6_commit (d : YDoc) :
    (ytransaction_commit d).2 = none ∧
    (ytransaction_commit d).1.openTxn = false ∧
    ytext_string (ytransaction_commit d).1 = ytext_string d ∧
    yarray_contents (ytransaction_commit d).1 = yarray_contents d ∧
    ∀ k, ymap_get (ytransaction_commit d).1 k = ymap_get d k :=
  ⟨rfl, rfl, rfl, rfl, fun _ => rfl⟩

/-- C7: Rejected decode leaves the document unchanged.  Decoding is total
and every failure is the explicit InvalidEncoding result (never a crash or a
silent truncation); a payload the decoder rejects is never applied, so the
document state after the failed `ytransaction_apply` equals the state before
it. -/
theorem claim7_invalid_encoding (d : YDoc) (bs : List Nat)
    (h : decodeUpdate bs = Except.error YError.invalidEncoding) :
    ytransaction_apply d bs = d ∧
    (∀ u, decodeUpdate bs ≠ Except.ok u) ∧
    (∀ bs2 : List Nat, (∃ u, decodeUpdate bs2 = Except.ok u) ∨
      decodeUpdate bs2 = Except.error YError.invalidEncoding) := by
  refine ⟨?_, ?_, ?_⟩
  · simp [ytransaction_apply, h]
  · intro u hu
    rw [h] at hu
    exact Except.noConfusion hu
  · intro bs2
    cases h2 : decodeUpdate bs2 with
    | ok u => exact Or.inl ⟨u, rfl⟩
    | error e =>
      cases e
      exact Or.inr rfl

/-- Witness for C7: the truncated payload [1] announces one block and
provides none; it is rejected and a concrete document is left unchanged. -/
theorem claim7_invalid_encoding_witness :
    decodeUpdate [1] = Except.error YError.invalidEncoding ∧
    ytransaction_apply (ydoc_new_with_id 7) [1] = ydoc_new_with_id 7 :=
  ⟨rfl, (claim7_invalid_encoding (ydoc_new_with_id 7) [1] rfl).1⟩

/-- C8: Out-of-bounds failure is local to the failing call.  After any
operations of an open transaction have run, a `ytext_insert` whose byte
index exceeds `ytext_len` fails (returns no document, mirroring the
header's panic), and the document remains exactly the state the prior
operations produced: running the operation list with the offending call
appended yields the same state as running the prior operations alone. -/
theorem claim8_failure_local (d : YDoc) (ops : List YOp) (i : Nat) (s : String)
    (h : ytext_len (runOps d ops) < i) :
    ytext_insert (runOps d ops) i s = none ∧
    runOps d (ops ++ [YOp.tIns i s]) = runOps d ops := by
  have hf : ytext_insert (runOps d ops) i s = none := ytext_insert_oob _ i s h
  exact ⟨hf, runOps_append_fail d ops (YOp.tIns i s) hf⟩

/-- Witness for C8: after a successful insert of "hi", an insert at the
out-of-bounds byte index 99 fails and the prior insert remains applied. -/
theorem claim8_failure_local_witness :
    ytext_len (runOps (ydoc_new_with_id 3) [YOp.tIns 0 "hi"]) < 99 ∧
    ytext_insert (runOps (ydoc_new_with_id 3) [YOp.tIns 0 "hi"]) 99 "x" = none ∧
    runOps (ydoc_new_with_id 3) ([YOp.tIns 0 "hi"] ++ [YOp.tIns 99 "x"])
      = runOps (ydoc_new_with_id 3) [YOp.tIns 0 "hi"] :=
  ⟨by decide,
   (claim8_failure_local (ydoc_new_with_id 3) [YOp.tIns 0 "hi"] 99 "x" (by decide)).1,
   (claim8_failure_local (ydoc_new_with_id 3) [YOp.tIns 0 "hi"] 99 "x" (by decide)).2⟩

/-- C9: Text length is measured in UTF-8 bytes.  For every document,
`ytext_len` equals the UTF-8 byte size of the string returned by
`ytext_string` (not the number of code points: the two differ on a document
holding a two-byte character), and consequently the index argument of
`ytext_insert` is a byte offset — the byte offset `ytext_len` is always a
valid insertion index. -/
theorem claim9_len_bytes :
    (∀ d : YDoc, ytext_len d = (ytext_string d).utf8ByteSize) ∧
    (∀ (d : YDoc) (s : String), (ytext_insert d (ytext_len d) s).isSome = true) ∧
    ytext_len docEacute ≠ (ytext_string docEacute).length := by
  refine ⟨fun d => sumBytes_go (textChars d), fun d s => ytext_insert_at_len d s, ?_⟩
  decide

/-- C10: Out-of-bounds reads are total.  For every index outside the bounds
of the array, `yarray_get` returns an absent result instead of failing
(reads never mutate the document in this model, being pure functions of it),
while the mutating `yarray_insert_range` and `yarray_remove_range` fail
(panic) on out-of-bounds input. -/
theorem claim10_get_total (d : YDoc) :
    (∀ i : Int, i < 0 ∨ (yarray_len d : Int) ≤ i → yarray_get d i = none) ∧
    (∀ (j : Nat) (vs : List Int), yarray_len d < j → yarray_insert_range d j vs = none) ∧
    (∀ (j l : Nat), yarray_len d < j + l → yarray_remove_range d j l = none) := by
  refine ⟨?_, ?_, ?_⟩
  · intro i hi
    rcases hi with hneg | hge
    · simp [yarray_get, hneg]
    · have hnneg : ¬ (i < 0) := by omega
      unfold yarray_get
      rw [if_neg hnneg]
      apply List.getElem?_eq_none
      show (yarray_contents d).length ≤ i.toNat
      have hlen : (yarray_contents d).length = yarray_len d := by
        simp [yarray_contents, yarray_len]
      rw [hlen]
      omega
  · intro j vs hj
    unfold yarray_insert_range
    rw [if_neg (by omega)]
  · intro j l hjl
    unfold yarray_remove_range
    rw [if_neg (by omega)]

/-- Witness for C10 on a fresh (empty) array: a negative read and a read at
any index return an absent value, while out-of-bounds mutations fail. -/
theorem claim10_get_total_witness :
    yarray_get (ydoc_new_with_id 5) (-1) = none ∧
    yarray_insert_range (ydoc_new_with_id 5) 3 [7] = none ∧
    yarray_remove_range (ydoc_new_with_id 5) 0 1 = none :=
  ⟨(claim10_get_total (ydoc_new_with_id 5)).1 (-1) (Or.inl (by decide)),
   (claim10_get_total (ydoc_new_with_id 5)).2.1 3 [7] (by decide),
   (claim10_get_total (ydoc_new_with_id 5)).2.2 0 1 (by decide)⟩
